import Mathlib

/-!
Verification of the `persistent_set` repository (a persistent ordered set
implemented as an unbalanced binary search tree with path copying,
`src/unnamed/part_000`).

Three shallow embeddings of the same source are developed:

* `PSet` — a value-level model: the tree reachable from the sentinel's left
  child is modelled as an inductive `Tree`, the handle (`m_root` sentinel +
  `m_size`) as a structure, and every member/free function of the source is
  translated into a pure function on those types.  This model settles the
  functional-correctness claims about bounds, `find`, `insert`, `erase` and
  iteration order.

* `PHeap` — a pointer-level model: `std::shared_ptr` references are
  addresses into an explicit heap (a list of node cells plus a list of
  value cells), allocation appends, and mutation is an explicit `List.set`.
  This model captures structural sharing, so it settles the persistence
  frame claims and the claims about `operator==`, which in the source
  compares `shared_ptr` addresses, not element values.

* `PExc` — a gas/exception model: every element comparison and every
  `make_shared` allocation consumes one unit of gas and throws (returns
  `none`) when gas is exhausted; the `try`/`catch` rollback of `insert` and
  `erase` is translated literally.  This model settles the strong
  exception-safety claim.
-/

namespace PSet

/-- A binary search tree node (`persistent_set::node`): one element and two
optional subtrees (`value`, `left`, `right`).  `Tree.nil` models an absent
child (a null `shared_ptr<node>`). -/
inductive Tree (α : Type) where
  | nil : Tree α
  | node (value : α) (left right : Tree α) : Tree α
deriving DecidableEq, Repr

variable {α : Type}

/-- In-order readout of a tree: the sequence an in-order traversal visits. -/
def inorder : Tree α → List α
  | .nil => []
  | .node x l r => inorder l ++ x :: inorder r

/-- Membership in a tree, via the in-order readout. -/
def Tree.Mem (t : Tree α) (v : α) : Prop := v ∈ inorder t

instance [DecidableEq α] (t : Tree α) (v : α) : Decidable (t.Mem v) := by
  unfold Tree.Mem; infer_instance

/-- `p` holds for every element of the tree. -/
def ForallT (p : α → Prop) : Tree α → Prop
  | .nil => True
  | .node x l r => p x ∧ ForallT p l ∧ ForallT p r

instance instDecidableForallT (p : α → Prop) [DecidablePred p] :
    (t : Tree α) → Decidable (ForallT p t)
  | .nil => .isTrue trivial
  | .node x l r =>
    have dl := instDecidableForallT p l
    have dr := instDecidableForallT p r
    decidable_of_iff (p x ∧ ForallT p l ∧ ForallT p r) (by rw [ForallT])

/-- The binary-search-tree order invariant maintained by the source:
every element of a node's left subtree is smaller than its value, which is
smaller than every element of its right subtree. -/
def IsBST [LT α] : Tree α → Prop
  | .nil => True
  | .node x l r => ForallT (· < x) l ∧ ForallT (x < ·) r ∧ IsBST l ∧ IsBST r

instance instDecidableIsBST [LinearOrder α] :
    (t : Tree α) → Decidable (IsBST t)
  | .nil => .isTrue trivial
  | .node x l r =>
    have dl := instDecidableIsBST (t := l)
    have dr := instDecidableIsBST (t := r)
    decidable_of_iff (ForallT (· < x) l ∧ ForallT (x < ·) r ∧ IsBST l ∧ IsBST r)
      (by rw [IsBST])

/-- The set handle (`persistent_set<T>`): `m_root` models the left child of
the sentinel root node (the real tree; the set is empty iff it is `nil`),
`m_size` the element counter. -/
structure persistent_set (α : Type) where
  m_root : Tree α
  m_size : Nat
deriving DecidableEq, Repr

/-- The empty set (`persistent_set()`): no real root, size `0`. -/
def persistent_set.empty : persistent_set α := ⟨.nil, 0⟩

/-- Free recursive `lower_bound(node* ptr, T const& value)` of the source:
at each node first test `==`, then `value > *ptr->value` (descend right),
otherwise descend left and fall back on the current node when the left
search returns `end()`.  An iterator is modelled by the element it points
to (`none` = `end()`). -/
def lower_bound [LinearOrder α] : Tree α → α → Option α
  | .nil, _ => none
  | .node x l r, v =>
    if x = v then some x
    else if v > x then lower_bound r v
    else
      match lower_bound l v with
      | none => some x
      | some y => some y

/-- Free recursive `upper_bound(node* ptr, T const& value)` of the source:
if `value < *ptr->value` descend left with the current node as fallback,
otherwise descend right. -/
def upper_bound [LinearOrder α] : Tree α → α → Option α
  | .nil, _ => none
  | .node x l r, v =>
    if v < x then
      match upper_bound l v with
      | none => some x
      | some y => some y
    else upper_bound r v

/-- Free recursive `rev_upper_bound(node* ptr, T* value)` of the source
(the non-null branch): if `*value > *ptr->value` descend right with the
current node as fallback, otherwise descend left. -/
def rev_upper_bound [LinearOrder α] : Tree α → α → Option α
  | .nil, _ => none
  | .node x l r, v =>
    if v > x then
      match rev_upper_bound r v with
      | none => some x
      | some y => some y
    else rev_upper_bound l v

/-- The `value == nullptr` branch of `rev_upper_bound(T* value)`, used by
`operator--` on the `end()` iterator: walk to the rightmost node of the
whole tree.  On an empty set the source dereferences a null pointer
(undefined behavior); that case is modelled as `none`. -/
def rightmost : Tree α → Option α
  | .nil => none
  | .node x _ r =>
    match r with
    | .nil => some x
    | .node y l' r' => rightmost (.node y l' r')

/-- Member `find(T const& value)`: `lower_bound` filtered to exact
equality, otherwise `end()`. -/
def persistent_set.find [LinearOrder α] (s : persistent_set α) (v : α) :
    Option α :=
  match lower_bound s.m_root v with
  | none => none
  | some y => if y ≠ v then none else some y

/-- Member `lower_bound(T const&)`: delegate to the free search from the
real root. -/
def persistent_set.lower_bound [LinearOrder α] (s : persistent_set α)
    (v : α) : Option α :=
  PSet.lower_bound s.m_root v

/-- Member `upper_bound(T const&)`: delegate to the free search from the
real root. -/
def persistent_set.upper_bound [LinearOrder α] (s : persistent_set α)
    (v : α) : Option α :=
  PSet.upper_bound s.m_root v

/-- Recursive `insert(node& next, T const& val)` of the source, fused with
the leaf-allocation case: if `val < *next.value` go left (allocating a new
leaf when the left child is absent), otherwise go right.  Path copying
makes each visited node a fresh copy, which in value semantics is exactly
a functional update. -/
def insertGo [LinearOrder α] : Tree α → α → Tree α
  | .nil, v => .node v .nil .nil
  | .node x l r, v =>
    if v < x then .node x (insertGo l v) r
    else .node x l (insertGo r v)

/-- Member `insert(T const& value)`: if `find(value)` is not `end()`,
return the existing position and `false` without touching the handle;
otherwise rebuild the root path with the new element, bump the size and
return `find(value)` on the new state together with `true`. -/
def persistent_set.insert [LinearOrder α] (s : persistent_set α) (v : α) :
    persistent_set α × Option α × Bool :=
  if s.find v ≠ none then (s, s.find v, false)
  else
    let s' : persistent_set α := ⟨insertGo s.m_root v, s.m_size + 1⟩
    (s', s'.find v, true)

/-- The inner descent of the two-children case of
`erase(T const& value, node* prev)`: walk to the rightmost node of the
(copied) left subtree, then splice it out via `erase_impl` — the parent's
pointer to it is replaced by its left child.  Returns the extracted
maximum together with the remaining subtree. -/
def removeMax (x : α) (l : Tree α) : Tree α → α × Tree α
  | .nil => (x, l)
  | .node rx rl rr =>
    let p := removeMax rx rl rr
    (p.1, .node x l p.2)

/-- The loop of `erase(T const& value, node* prev)`: descend comparing
`==` then `<`; at the target, with zero or one child splice the node out
(`erase_impl`), with two children swap the value with the in-order
predecessor (rightmost of the left subtree) and splice the predecessor
out.  Erasing a value that is absent dereferences a null pointer in the
source (undefined behavior); here the descent simply stops at `nil`. -/
def eraseGo [LinearOrder α] : Tree α → α → Tree α
  | .nil, _ => .nil
  | .node x l r, v =>
    if x = v then
      match l, r with
      | .node lx ll lr, .node rx rl rr =>
        let p := removeMax lx ll lr
        .node p.1 p.2 (.node rx rl rr)
      | .nil, _ => r
      | l', .nil => l'
    else if v < x then .node x (eraseGo l v) r
    else .node x l (eraseGo r v)

/-- Member `erase(iterator it)`, with the iterator represented by the value
it points to: rebuild the root path without that value, decrement the size
and return `lower_bound` of the erased value on the post-erase tree. -/
def persistent_set.erase [LinearOrder α] (s : persistent_set α) (v : α) :
    persistent_set α × Option α :=
  let s' : persistent_set α := ⟨eraseGo s.m_root v, s.m_size - 1⟩
  (s', s'.lower_bound v)

/-- Member `begin()`: walk left from the sentinel; on an empty set this
stays at the sentinel, i.e. `end()` (`none`). -/
def beginIt : Tree α → Option α
  | .nil => none
  | .node x l _ =>
    match l with
    | .nil => some x
    | .node y l' r' => beginIt (.node y l' r')

/-- Iterator `operator++`: replace the iterator by
`set_ptr->upper_bound(*node_ptr->value)`, i.e. the upper bound of the
current value evaluated against the owning set's current root. -/
def iterInc [LinearOrder α] (s : persistent_set α) (v : α) : Option α :=
  s.upper_bound v

/-- Iterator `operator--` applied to the `end()` iterator: the sentinel's
value pointer is null, so `rev_upper_bound(nullptr)` walks to the
rightmost node of the whole tree. -/
def iterDecEnd (s : persistent_set α) : Option α :=
  rightmost s.m_root

/-- The observable iteration sequence from `begin()` to `end()`: start at
`begin()` and repeatedly apply `operator++` (an `upper_bound` re-search on
the current root).  Fuel bounds the number of steps; `iterSeq` supplies
one more unit of fuel than the tree can possibly need. -/
def iterFrom [LinearOrder α] (s : persistent_set α) :
    Nat → Option α → List α
  | 0, _ => []
  | _ + 1, none => []
  | fuel + 1, some x => x :: iterFrom s fuel (iterInc s x)

/-- The full `begin()`-to-`end()` iteration sequence of a set. -/
def iterSeq [LinearOrder α] (s : persistent_set α) : List α :=
  iterFrom s (inorder s.m_root).length (beginIt s.m_root)

/-- Build a set by member-inserting each value of a list in order into the
empty set. -/
def buildSet [LinearOrder α] (vs : List α) : persistent_set α :=
  vs.foldl (fun s v => (s.insert v).1) persistent_set.empty

end PSet

namespace PHeap

/-- A node cell at the pointer level (`persistent_set::node`): the three
members are `shared_ptr`s, modelled as optional addresses — `value` into
the value store, `left`/`right` into the node store (`none` = null). -/
structure NodeCell where
  value : Option Nat
  left : Option Nat
  right : Option Nat
deriving DecidableEq, Repr

/-- The heap shared by every set version: node cells and value cells,
addressed by list index.  `make_shared` appends a cell; path copying
mutates only cells appended during the current call. -/
structure Heap (α : Type) where
  nodes : List NodeCell
  vals : List α
deriving DecidableEq, Repr

variable {α : Type}

/-- The set handle: `m_root` is the sentinel node held by value inside
`persistent_set` (its `left` member points at the real tree root), and
`m_size` is the element counter.  The copy constructor copies exactly
these members, sharing the `shared_ptr` targets. -/
structure Handle where
  m_root : NodeCell
  m_size : Nat
deriving DecidableEq, Repr

/-- A default-constructed set: sentinel with three null members, size 0. -/
def Handle.empty : Handle := ⟨⟨none, none, none⟩, 0⟩

/-- The copy constructor `persistent_set(persistent_set const& other)`:
copy the size and the sentinel node (sharing its member pointers). -/
def copyHandle (s : Handle) : Handle := ⟨s.m_root, s.m_size⟩

/-- Allocate a node cell (`std::make_shared<node>`): append it and return
its fresh address. -/
def allocN (h : Heap α) (c : NodeCell) : Heap α × Nat :=
  ({ h with nodes := h.nodes ++ [c] }, h.nodes.length)

/-- Allocate a value cell (`std::make_shared<T>`). -/
def allocV (h : Heap α) (v : α) : Heap α × Nat :=
  ({ h with vals := h.vals ++ [v] }, h.vals.length)

/-- Overwrite the node cell at an address (mutation of a node the current
call has freshly allocated). -/
def writeN (h : Heap α) (a : Nat) (c : NodeCell) : Heap α :=
  { h with nodes := h.nodes.set a c }

/-- Read the element a node cell's `value` pointer refers to. -/
def readVal (h : Heap α) (c : NodeCell) : Option α :=
  c.value.bind fun i => h.vals[i]?

/-- `operator==` on nodes: the source compares the three `shared_ptr`
members with `shared_ptr::operator==`, i.e. by stored address — it does
not recurse and does not compare element values. -/
def nodeEqB (lhs rhs : NodeCell) : Bool :=
  lhs.left == rhs.left && lhs.right == rhs.right && lhs.value == rhs.value

/-- `operator==` on sets: `lhs.m_root == rhs.m_root && lhs.m_size ==
rhs.m_size`. -/
def setEqB (lhs rhs : Handle) : Bool :=
  nodeEqB lhs.m_root rhs.m_root && lhs.m_size == rhs.m_size

/-- Pointer-level `lower_bound(node* ptr, T const& value)`, fuel-bounded:
same comparison sequence as the source (`==`, then `>` to go right, else
left with the current node as fallback).  Fuel only limits pointer chasing
and is always supplied larger than any root-to-leaf path. -/
def lowerBoundH [LinearOrder α] : Nat → Heap α → Option Nat → α → Option Nat
  | 0, _, _, _ => none
  | _ + 1, _, none, _ => none
  | fuel + 1, h, some a, v =>
    match h.nodes[a]? with
    | none => none
    | some c =>
      match readVal h c with
      | none => none
      | some x =>
        if x = v then some a
        else if v > x then lowerBoundH fuel h c.right v
        else
          match lowerBoundH fuel h c.left v with
          | none => some a
          | some b => some b

/-- Dereference an iterator (`*it`): `none` for `end()`. -/
def derefH (h : Heap α) : Option Nat → Option α
  | none => none
  | some a =>
    match h.nodes[a]? with
    | none => none
    | some c => readVal h c

/-- Member `find(T const& value)` at the pointer level: `lower_bound`
filtered to exact equality. -/
def findH [LinearOrder α] (h : Heap α) (s : Handle) (v : α) : Option Nat :=
  match lowerBoundH h.nodes.length h s.m_root.left v with
  | none => none
  | some a => if derefH h (some a) = some v then some a else none

/-- The recursive `insert(node& next, T const& val)` at the pointer level:
`next` (address `a`) is a node freshly allocated by the caller; descend by
`<`, copying the touched child into a fresh cell (or allocating a fresh
leaf) and rewriting `a`'s child pointer to the copy. -/
def insertGoH [LinearOrder α] : Nat → Heap α → Nat → α → Heap α
  | 0, h, _, _ => h
  | fuel + 1, h, a, v =>
    match h.nodes[a]? with
    | none => h
    | some c =>
      match readVal h c with
      | none => h
      | some x =>
        if v < x then
          match c.left with
          | some la =>
            match h.nodes[la]? with
            | none => h
            | some lc =>
              let p := allocN h lc
              let h2 := writeN p.1 a ⟨c.value, some p.2, c.right⟩
              insertGoH fuel h2 p.2 v
          | none =>
            let q := allocV h v
            let p := allocN q.1 ⟨some q.2, none, none⟩
            writeN p.1 a ⟨c.value, some p.2, c.right⟩
        else
          match c.right with
          | some ra =>
            match h.nodes[ra]? with
            | none => h
            | some rc =>
              let p := allocN h rc
              let h2 := writeN p.1 a ⟨c.value, c.left, some p.2⟩
              insertGoH fuel h2 p.2 v
          | none =>
            let q := allocV h v
            let p := allocN q.1 ⟨some q.2, none, none⟩
            writeN p.1 a ⟨c.value, c.left, some p.2⟩

/-- Member `insert(T const& value)` at the pointer level: if `find` hits,
return the existing position and `false`; otherwise copy the sentinel into
a local, replace its left pointer by a fresh copy of the root (or a fresh
leaf), run the recursive insert on the copy, publish the local sentinel
and the incremented size, and return `find` on the new state. -/
def insertH [LinearOrder α] (h : Heap α) (s : Handle) (v : α) :
    Heap α × Handle × Option Nat × Bool :=
  match findH h s v with
  | some a => (h, s, some a, false)
  | none =>
    match s.m_root.left with
    | some ra =>
      match h.nodes[ra]? with
      | none => (h, s, none, false)
      | some rc =>
        let p := allocN h rc
        let h2 := insertGoH (h.nodes.length + 1) p.1 p.2 v
        let s' : Handle := ⟨⟨s.m_root.value, some p.2, s.m_root.right⟩, s.m_size + 1⟩
        (h2, s', findH h2 s' v, true)
    | none =>
      let q := allocV h v
      let p := allocN q.1 ⟨some q.2, none, none⟩
      let s' : Handle := ⟨⟨s.m_root.value, some p.2, s.m_root.right⟩, s.m_size + 1⟩
      (p.1, s', findH p.1 s' v, true)

/-- The two-children inner loop of `erase(T const&, node*)`: starting from
the freshly copied left child `na` of the target `pa`, walk to the
rightmost descendant, copying each right child into a fresh cell; returns
the final `(tmp_prev, next)` pair of addresses. -/
def spineH : Nat → Heap α → Nat → Nat → Heap α × Nat × Nat
  | 0, h, pa, na => (h, pa, na)
  | fuel + 1, h, pa, na =>
    match h.nodes[na]? with
    | none => (h, pa, na)
    | some c =>
      match c.right with
      | none => (h, pa, na)
      | some ra =>
        match h.nodes[ra]? with
        | none => (h, pa, na)
        | some rc =>
          let p := allocN h rc
          let h2 := writeN p.1 na ⟨c.value, c.left, some p.2⟩
          spineH fuel h2 na p.2

/-- `erase_impl(node* parent, node* son)`: splice `son` out of `parent` —
with no children reset the parent's matching pointer, otherwise replace it
by `son`'s left child if present, else by its right child.  The parent is
identified by comparing its `left` pointer with `son`'s address, exactly
as the source compares `parent->left.get() == son`. -/
def eraseImplH (h : Heap α) (pa na : Nat) : Heap α :=
  match h.nodes[pa]?, h.nodes[na]? with
  | some pc, some nc =>
    match nc.left, nc.right with
    | none, none =>
      if pc.left = some na then writeN h pa ⟨pc.value, none, pc.right⟩
      else writeN h pa ⟨pc.value, pc.left, none⟩
    | _, _ =>
      let child := match nc.left with
        | some l => some l
        | none => nc.right
      if pc.left = some na then writeN h pa ⟨pc.value, child, pc.right⟩
      else writeN h pa ⟨pc.value, pc.left, child⟩
  | _, _ => h

/-- The loop of `erase(T const& value, node* prev)` at the pointer level.
The node at `a` is a cell freshly copied by the caller; the function
returns the heap together with the address the caller's child pointer to
this position must become (so `erase_impl`'s write into the parent is
performed by the caller, which is the parent on the copied path). -/
def eraseLoopH [LinearOrder α] : Nat → Heap α → Nat → α → Heap α × Option Nat
  | 0, h, a, _ => (h, some a)
  | fuel + 1, h, a, v =>
    match h.nodes[a]? with
    | none => (h, some a)
    | some c =>
      match readVal h c with
      | none => (h, some a)
      | some x =>
        if x = v then
          match c.left, c.right with
          | some la, some _ =>
            match h.nodes[la]? with
            | none => (h, some a)
            | some lc =>
              let p := allocN h lc
              let h2 := writeN p.1 a ⟨c.value, some p.2, c.right⟩
              let q := spineH fuel h2 a p.2
              match q.1.nodes[a]?, q.1.nodes[q.2.2]? with
              | some ca, some cna =>
                let h3 := writeN q.1 a ⟨cna.value, ca.left, ca.right⟩
                let h4 := writeN h3 q.2.2 ⟨ca.value, cna.left, cna.right⟩
                (eraseImplH h4 q.2.1 q.2.2, some a)
              | _, _ => (q.1, some a)
          | none, _ => (h, c.right)
          | some l, none => (h, some l)
        else if v < x then
          match c.left with
          | none => (h, some a)
          | some ca =>
            match h.nodes[ca]? with
            | none => (h, some a)
            | some cc =>
              let p := allocN h cc
              let h2 := writeN p.1 a ⟨c.value, some p.2, c.right⟩
              let q := eraseLoopH fuel h2 p.2 v
              match q.1.nodes[a]? with
              | some c2 => (writeN q.1 a ⟨c2.value, q.2, c2.right⟩, some a)
              | none => (q.1, some a)
        else
          match c.right with
          | none => (h, some a)
          | some ca =>
            match h.nodes[ca]? with
            | none => (h, some a)
            | some cc =>
              let p := allocN h cc
              let h2 := writeN p.1 a ⟨c.value, c.left, some p.2⟩
              let q := eraseLoopH fuel h2 p.2 v
              match q.1.nodes[a]? with
              | some c2 => (writeN q.1 a ⟨c2.value, c2.left, q.2⟩, some a)
              | none => (q.1, some a)

/-- Member `erase(iterator it)` at the pointer level: read the target
value through the iterator's node pointer, copy the sentinel, copy the
root, run the erase loop, publish the new sentinel and decremented size,
and return `lower_bound` of the erased value on the new tree.  Erasing
from an empty set or through an invalid iterator is undefined behavior in
the source and modelled as a no-op. -/
def eraseH [LinearOrder α] (h : Heap α) (s : Handle) (ita : Nat) :
    Heap α × Handle × Option Nat :=
  match h.nodes[ita]? with
  | none => (h, s, none)
  | some itc =>
    match readVal h itc with
    | none => (h, s, none)
    | some v =>
      match s.m_root.left with
      | none => (h, s, none)
      | some ra =>
        match h.nodes[ra]? with
        | none => (h, s, none)
        | some rc =>
          let p := allocN h rc
          let q := eraseLoopH (h.nodes.length + 1) p.1 p.2 v
          let s' : Handle := ⟨⟨s.m_root.value, q.2, s.m_root.right⟩, s.m_size - 1⟩
          (q.1, s', lowerBoundH q.1.nodes.length q.1 s'.m_root.left v)

/-- In-order readout of the tree hanging from an address: the observation
"the in-order iteration sequence" of a version rooted there. -/
def inorderH : Nat → Heap α → Option Nat → List α
  | 0, _, _ => []
  | _ + 1, _, none => []
  | fuel + 1, h, some a =>
    match h.nodes[a]? with
    | none => []
    | some c =>
      inorderH fuel h c.left ++
        (match readVal h c with
         | none => []
         | some x => [x]) ++
        inorderH fuel h c.right

/-- One mutation applied to a handle: `ins v` is `insert(v)`; `del v` is
`erase(find(v))` when `v` is present (the only way to obtain a valid
iterator argument) and a no-op otherwise. -/
inductive Op (α : Type) where
  | ins (v : α)
  | del (v : α)
deriving DecidableEq, Repr

/-- Apply one operation to a handle, threading the shared heap. -/
def applyOp [LinearOrder α] (hs : Heap α × Handle) (op : Op α) :
    Heap α × Handle :=
  match op with
  | .ins v =>
    let r := insertH hs.1 hs.2 v
    (r.1, r.2.1)
  | .del v =>
    match findH hs.1 hs.2 v with
    | none => hs
    | some a =>
      let r := eraseH hs.1 hs.2 a
      (r.1, r.2.1)

/-- Apply a sequence of insert/erase operations to a handle. -/
def applyOps [LinearOrder α] (ops : List (Op α)) (h : Heap α) (s : Handle) :
    Heap α × Handle :=
  ops.foldl applyOp (h, s)

/-- A cell is closed below the given node/value bounds: its pointers do
not dangle. -/
def cellOkB (n vn : Nat) (c : NodeCell) : Bool :=
  c.left.all (· < n) && c.right.all (· < n) && c.value.all (· < vn)

/-- Every cell of the heap is closed: no pointer dangles. -/
def closedB (h : Heap α) : Bool :=
  h.nodes.all (cellOkB h.nodes.length h.vals.length)

/-- The handle's root pointer is a valid address of the heap (or null). -/
def rootOkB (h : Heap α) (s : Handle) : Bool :=
  s.m_root.left.all (· < h.nodes.length)

/-- Heap `h'` extends heap `h` below bound `n`: the node store only grew,
every node cell at an address below `n` is unchanged, and the value store
was only appended to.  This is the frame property path copying guarantees:
a mutation never writes through a pointer into the pre-existing heap. -/
def HExt (n : Nat) (h h' : Heap α) : Prop :=
  h.nodes.length ≤ h'.nodes.length ∧
  (∀ b, b < n → h'.nodes[b]? = h.nodes[b]?) ∧
  ∃ tl, h'.vals = h.vals ++ tl

/-- Concrete scenario: insert `2` into an empty set in an empty heap. -/
def demoIns1 : Heap Nat × Handle × Option Nat × Bool :=
  insertH ⟨[], []⟩ Handle.empty 2

/-- Concrete scenario: then insert `1`, giving the set `{1, 2}`. -/
def demoIns2 : Heap Nat × Handle × Option Nat × Bool :=
  insertH demoIns1.1 demoIns1.2.1 1

/-- Concrete scenario: a singleton set `{0}` built in an empty heap. -/
def demoA : Heap Nat × Handle × Option Nat × Bool :=
  insertH ⟨[], []⟩ Handle.empty 0

/-- Concrete scenario: a second, independently built singleton set `{0}`
allocated in the same heap as the first one. -/
def demoB : Heap Nat × Handle × Option Nat × Bool :=
  insertH demoA.1 Handle.empty 0

end PHeap

namespace PExc

open PSet (persistent_set)

variable {α : Type}

/-- A throwing element comparison `a < b`: consumes one unit of gas,
throws (`none`) when gas is exhausted.  This models a comparator that may
throw at any point of an `insert`/`erase` call. -/
def ltE [LinearOrder α] (g : Nat) (a b : α) : Option (Nat × Bool) :=
  match g with
  | 0 => none
  | g + 1 => some (g, decide (a < b))

/-- A throwing element comparison `a == b`. -/
def eqE [DecidableEq α] (g : Nat) (a b : α) : Option (Nat × Bool) :=
  match g with
  | 0 => none
  | g + 1 => some (g, decide (a = b))

/-- A throwing element comparison `a > b`. -/
def gtE [LinearOrder α] (g : Nat) (a b : α) : Option (Nat × Bool) :=
  match g with
  | 0 => none
  | g + 1 => some (g, decide (b < a))

/-- A throwing element comparison `a != b`. -/
def neE [DecidableEq α] (g : Nat) (a b : α) : Option (Nat × Bool) :=
  match g with
  | 0 => none
  | g + 1 => some (g, decide (a ≠ b))

/-- A throwing `std::make_shared` allocation: consumes one unit of gas,
throws when gas is exhausted. -/
def allocE (g : Nat) : Option Nat :=
  match g with
  | 0 => none
  | g + 1 => some g

/-- `lower_bound(node*, T const&)` with throwing comparisons: the same
comparison sequence as the source (`==`, then `>`), threading gas. -/
def lowerBoundE [LinearOrder α] : Nat → PSet.Tree α → α → Option (Nat × Option α)
  | g, .nil, _ => some (g, none)
  | g, .node x l r, v => do
    let p ← eqE g x v
    if p.2 then some (p.1, some x)
    else do
      let q ← gtE p.1 v x
      if q.2 then lowerBoundE q.1 r v
      else do
        let w ← lowerBoundE q.1 l v
        match w.2 with
        | none => some (w.1, some x)
        | some y => some (w.1, some y)

/-- Member `find(T const&)` with throwing comparisons.  The source
evaluates `lower_bound(value)` once for the `end()` test, once for the
dereference test and once for the returned iterator; each evaluation runs
the comparisons again, which the gas threading reproduces. -/
def findE [LinearOrder α] (g : Nat) (t : PSet.Tree α) (v : α) :
    Option (Nat × Option α) := do
  let p ← lowerBoundE g t v
  match p.2 with
  | none => some (p.1, none)
  | some _ => do
    let q ← lowerBoundE p.1 t v
    match q.2 with
    | none => some (q.1, none)
    | some y => do
      let w ← neE q.1 y v
      if w.2 then some (w.1, none)
      else lowerBoundE w.1 t v

/-- The recursive `insert(node&, T const&)` with throwing comparisons and
allocations: compare, copy the touched child (one allocation) or allocate
the fresh leaf, and recurse. -/
def insertGoE [LinearOrder α] : Nat → PSet.Tree α → α → Option (Nat × PSet.Tree α)
  | g, .nil, v => do
    let g1 ← allocE g
    some (g1, .node v .nil .nil)
  | g, .node x l r, v => do
    let p ← ltE g v x
    if p.2 then
      match l with
      | .nil => do
        let q ← insertGoE p.1 .nil v
        some (q.1, PSet.Tree.node x q.2 r)
      | .node lx ll lr => do
        let g2 ← allocE p.1
        let q ← insertGoE g2 (.node lx ll lr) v
        some (q.1, PSet.Tree.node x q.2 r)
    else
      match r with
      | .nil => do
        let q ← insertGoE p.1 .nil v
        some (q.1, PSet.Tree.node x l q.2)
      | .node rx rl rr => do
        let g2 ← allocE p.1
        let q ← insertGoE g2 (.node rx rl rr) v
        some (q.1, PSet.Tree.node x l q.2)

/-- The body of the `try` block of member `insert` acting on the sentinel
copy: copy the root (one allocation) and insert below it, or allocate the
fresh leaf when the tree is empty. -/
def insertRootE [LinearOrder α] (g : Nat) (t : PSet.Tree α) (v : α) :
    Option (Nat × PSet.Tree α) :=
  match t with
  | .nil => insertGoE g .nil v
  | .node x l r => do
    let g1 ← allocE g
    insertGoE g1 (.node x l r) v

/-- Member `insert(T const& value)` with throwing comparisons and
allocations, returning the final handle state together with the call's
outcome (`none` = an exception propagated to the caller).  The handle
state is saved before the `try` block and restored by the `catch` block
before rethrowing. -/
def insertE [LinearOrder α] (s : persistent_set α) (v : α) (g : Nat) :
    (persistent_set α × Nat) × Option (Option α × Bool) :=
  match findE g s.m_root v with
  | none => ((s, 0), none)
  | some (g1, some y) => ((s, g1), some (some y, false))
  | some (g1, none) =>
    match (do
      let p ← insertRootE g1 s.m_root v
      let s1 : persistent_set α := ⟨p.2, s.m_size + 1⟩
      let q ← findE p.1 s1.m_root v
      some (q.1, s1, q.2) : Option (Nat × persistent_set α × Option α)) with
    | some (g2, s1, it) => ((s1, g2), some (it, true))
    | none => ((s, 0), none)

/-- The two-children right-spine walk of `erase(T const&, node*)` with
throwing allocations: each step copies a right child. -/
def removeMaxE : Nat → α → PSet.Tree α → PSet.Tree α → Option (Nat × α × PSet.Tree α)
  | g, x, l, .nil => some (g, x, l)
  | g, x, l, .node rx rl rr => do
    let g1 ← allocE g
    let q ← removeMaxE g1 rx rl rr
    some (q.1, q.2.1, PSet.Tree.node x l q.2.2)

/-- The loop of `erase(T const& value, node* prev)` with throwing
comparisons and allocations. -/
def eraseGoE [LinearOrder α] : Nat → PSet.Tree α → α → Option (Nat × PSet.Tree α)
  | g, .nil, _ => some (g, .nil)
  | g, .node x l r, v => do
    let p ← eqE g x v
    if p.2 then
      match l, r with
      | .node lx ll lr, .node rx rl rr => do
        let g2 ← allocE p.1
        let q ← removeMaxE g2 lx ll lr
        some (q.1, PSet.Tree.node q.2.1 q.2.2 (PSet.Tree.node rx rl rr))
      | .nil, _ => some (p.1, r)
      | l', .nil => some (p.1, l')
    else do
      let q ← ltE p.1 v x
      if q.2 then
        match l with
        | .nil => some (q.1, PSet.Tree.node x .nil r)
        | .node lx ll lr => do
          let g2 ← allocE q.1
          let w ← eraseGoE g2 (.node lx ll lr) v
          some (w.1, PSet.Tree.node x w.2 r)
      else
        match r with
        | .nil => some (q.1, PSet.Tree.node x l .nil)
        | .node rx rl rr => do
          let g2 ← allocE q.1
          let w ← eraseGoE g2 (.node rx rl rr) v
          some (w.1, PSet.Tree.node x l w.2)

/-- The body of `erase(T const&, node*)` at the sentinel: copy the root
(one allocation) and run the loop below it.  On an empty tree the source
dereferences a null pointer (undefined behavior); modelled as a no-op. -/
def eraseRootE [LinearOrder α] (g : Nat) (t : PSet.Tree α) (v : α) :
    Option (Nat × PSet.Tree α) :=
  match t with
  | .nil => some (g, .nil)
  | .node x l r => do
    let g1 ← allocE g
    eraseGoE g1 (.node x l r) v

/-- Member `erase(iterator it)` with throwing comparisons and allocations
(`v` is the value the iterator points at), returning the final handle
state together with the call's outcome (`none` = an exception
propagated).  The handle state is saved before the `try` block and
restored by the `catch` block before rethrowing. -/
def eraseE [LinearOrder α] (s : persistent_set α) (v : α) (g : Nat) :
    (persistent_set α × Nat) × Option (Option α) :=
  match (do
    let p ← eraseRootE g s.m_root v
    let s1 : persistent_set α := ⟨p.2, s.m_size - 1⟩
    let q ← lowerBoundE p.1 s1.m_root v
    some (q.1, s1, q.2) : Option (Nat × persistent_set α × Option α)) with
  | some (g2, s1, it) => ((s1, g2), some it)
  | none => ((s, 0), none)

end PExc

namespace PSet

variable {α : Type}

theorem forallT_iff (p : α → Prop) (t : Tree α) :
    ForallT p t ↔ ∀ y ∈ inorder t, p y := by
  induction t with
  | nil => simp [ForallT, inorder]
  | node x l r ihl ihr =>
    simp only [ForallT, inorder, List.mem_append, List.mem_cons, ihl, ihr]
    constructor
    · rintro ⟨hx, hl, hr⟩ y (hy | rfl | hy)
      · exact hl y hy
      · exact hx
      · exact hr y hy
    · intro h
      exact ⟨h x (Or.inr (Or.inl rfl)),
        fun y hy => h y (Or.inl hy),
        fun y hy => h y (Or.inr (Or.inr hy))⟩

theorem sorted_inorder_of_isBST [LinearOrder α] {t : Tree α} (h : IsBST t) :
    (inorder t).Sorted (· < ·) := by
  induction t with
  | nil => exact List.sorted_nil
  | node x l r ihl ihr =>
    simp only [IsBST] at h
    obtain ⟨hfl, hfr, bl, br⟩ := h
    have hL := (forallT_iff _ _).mp hfl
    have hR := (forallT_iff _ _).mp hfr
    rw [inorder]
    refine List.pairwise_append.mpr ⟨ihl bl, ?_, ?_⟩
    · exact List.pairwise_cons.mpr ⟨hR, ihr br⟩
    · intro a ha b hb
      rcases List.mem_cons.mp hb with rfl | hb'
      · exact hL a ha
      · exact lt_trans (hL a ha) (hR b hb')

theorem isBST_of_sorted_inorder [LinearOrder α] {t : Tree α}
    (h : (inorder t).Sorted (· < ·)) : IsBST t := by
  induction t with
  | nil => trivial
  | node x l r ihl ihr =>
    rw [inorder] at h
    have h' := List.pairwise_append.mp h
    obtain ⟨h1, h2, h3⟩ := h'
    have h2' := List.pairwise_cons.mp h2
    refine ⟨?_, ?_, ihl h1, ihr h2'.2⟩
    · exact (forallT_iff _ _).mpr fun y hy => h3 y hy x (List.mem_cons_self _ _)
    · exact (forallT_iff _ _).mpr fun y hy => h2'.1 y hy

theorem nodup_inorder_of_isBST [LinearOrder α] {t : Tree α} (h : IsBST t) :
    (inorder t).Nodup :=
  (sorted_inorder_of_isBST h).nodup

theorem find?_some_decomp {p : α → Bool} :
    ∀ {l : List α} {y : α}, l.find? p = some y →
      ∃ l1 l2, l = l1 ++ y :: l2 ∧ ∀ a ∈ l1, ¬ p a := by
  intro l
  induction l with
  | nil => simp
  | cons a l ih =>
    intro y hy
    by_cases hpa : p a
    · rw [List.find?_cons_of_pos _ hpa] at hy
      cases hy
      exact ⟨[], l, rfl, by simp⟩
    · rw [List.find?_cons_of_neg _ hpa] at hy
      obtain ⟨l1, l2, rfl, hall⟩ := ih hy
      refine ⟨a :: l1, l2, rfl, ?_⟩
      intro b hb
      rcases List.mem_cons.mp hb with rfl | hb'
      · exact hpa
      · exact hall b hb'

theorem lower_bound_eq_find? [LinearOrder α] {t : Tree α} (hb : IsBST t)
    (v : α) :
    lower_bound t v = (inorder t).find? (fun y => decide (v ≤ y)) := by
  induction t with
  | nil => simp [lower_bound, inorder]
  | node x l r ihl ihr =>
    simp only [IsBST] at hb
    obtain ⟨hfl, hfr, bl, br⟩ := hb
    have hL := (forallT_iff _ _).mp hfl
    have hR := (forallT_iff _ _).mp hfr
    rw [inorder]
    by_cases hxv : x = v
    · subst hxv
      rw [lower_bound, if_pos rfl]
      have hnone : (inorder l).find? (fun y => decide (x ≤ y)) = none :=
        List.find?_eq_none.mpr fun z hz => by
          simpa using not_le.mpr (hL z hz)
      rw [List.find?_append, hnone, Option.none_or,
        List.find?_cons_of_pos _ (by simp)]
    · by_cases hvx : v > x
      · rw [lower_bound, if_neg hxv, if_pos hvx]
        have hnone : (inorder l).find? (fun y => decide (v ≤ y)) = none :=
          List.find?_eq_none.mpr fun z hz => by
            simpa using not_le.mpr (lt_trans (hL z hz) hvx)
        rw [List.find?_append, hnone, Option.none_or,
          List.find?_cons_of_neg _ (by simpa using not_le.mpr hvx)]
        exact ihr br
      · have hvltx : v < x := lt_of_le_of_ne (not_lt.mp hvx) fun h => hxv h.symm
        rw [lower_bound, if_neg hxv, if_neg hvx, ihl bl]
        cases hfind : (inorder l).find? (fun y => decide (v ≤ y)) with
        | none =>
          rw [List.find?_append, hfind, Option.none_or,
            List.find?_cons_of_pos _ (by simpa using le_of_lt hvltx)]
        | some y =>
          rw [List.find?_append, hfind]
          rfl

theorem upper_bound_eq_find? [LinearOrder α] {t : Tree α} (hb : IsBST t)
    (v : α) :
    upper_bound t v = (inorder t).find? (fun y => decide (v < y)) := by
  induction t with
  | nil => simp [upper_bound, inorder]
  | node x l r ihl ihr =>
    simp only [IsBST] at hb
    obtain ⟨hfl, hfr, bl, br⟩ := hb
    have hL := (forallT_iff _ _).mp hfl
    have hR := (forallT_iff _ _).mp hfr
    rw [inorder]
    by_cases hvx : v < x
    · rw [upper_bound, if_pos hvx, ihl bl]
      cases hfind : (inorder l).find? (fun y => decide (v < y)) with
      | none =>
        rw [List.find?_append, hfind, Option.none_or,
          List.find?_cons_of_pos _ (by simpa using hvx)]
      | some y =>
        rw [List.find?_append, hfind]
        rfl
    · rw [upper_bound, if_neg hvx]
      have hnone : (inorder l).find? (fun y => decide (v < y)) = none :=
        List.find?_eq_none.mpr fun z hz => by
          simpa using not_lt.mpr (le_of_lt (lt_of_lt_of_le (hL z hz) (not_lt.mp hvx)))
      rw [List.find?_append, hnone, Option.none_or,
        List.find?_cons_of_neg _ (by simpa using hvx)]
      exact ihr br

theorem lower_bound_eq_some_self [LinearOrder α] {t : Tree α}
    (hb : IsBST t) {v : α} (hv : v ∈ inorder t) :
    lower_bound t v = some v := by
  obtain ⟨pre, suf, hdec⟩ := List.append_of_mem hv
  have hs := sorted_inorder_of_isBST hb
  rw [lower_bound_eq_find? hb, hdec]
  rw [hdec] at hs
  have hpre : ∀ a ∈ pre, a < v := fun a ha =>
    (List.pairwise_append.mp hs).2.2 a ha v (List.mem_cons_self _ _)
  have hnone : pre.find? (fun y => decide (v ≤ y)) = none :=
    List.find?_eq_none.mpr fun z hz => by simpa using not_le.mpr (hpre z hz)
  rw [List.find?_append, hnone, Option.none_or,
    List.find?_cons_of_pos _ (by simp)]

theorem find_eq_some_of_mem [LinearOrder α] {s : persistent_set α}
    (hb : IsBST s.m_root) {v : α} (hv : v ∈ inorder s.m_root) :
    s.find v = some v := by
  unfold persistent_set.find
  rw [lower_bound_eq_some_self hb hv]
  simp

theorem find_eq_none_of_not_mem [LinearOrder α] {s : persistent_set α}
    (hb : IsBST s.m_root) {v : α} (hv : v ∉ inorder s.m_root) :
    s.find v = none := by
  unfold persistent_set.find
  cases hlb : lower_bound s.m_root v with
  | none => rfl
  | some y =>
    rw [lower_bound_eq_find? hb] at hlb
    have hym := List.mem_of_find?_eq_some hlb
    have hne : y ≠ v := by rintro rfl; exact hv hym
    simp [hne]

theorem mem_of_find_eq_some [LinearOrder α] {s : persistent_set α}
    (hb : IsBST s.m_root) {v y : α} (h : s.find v = some y) :
    v ∈ inorder s.m_root := by
  by_cases hv : v ∈ inorder s.m_root
  · exact hv
  · rw [find_eq_none_of_not_mem hb hv] at h
    cases h

theorem mem_inorder_insertGo [LinearOrder α] (t : Tree α) (v x : α) :
    x ∈ inorder (insertGo t v) ↔ x = v ∨ x ∈ inorder t := by
  induction t with
  | nil => simp [insertGo, inorder]
  | node y l r ihl ihr =>
    by_cases h : v < y
    · simp only [insertGo, if_pos h, inorder, List.mem_append, List.mem_cons,
        ihl]
      tauto
    · simp only [insertGo, if_neg h, inorder, List.mem_append, List.mem_cons,
        ihr]
      tauto

theorem forallT_insertGo [LinearOrder α] {p : α → Prop} {t : Tree α} {v : α}
    (ht : ForallT p t) (hv : p v) : ForallT p (insertGo t v) := by
  induction t with
  | nil => exact ⟨hv, trivial, trivial⟩
  | node y l r ihl ihr =>
    obtain ⟨hy, hl, hr⟩ := ht
    by_cases h : v < y
    · simp only [insertGo, if_pos h]
      exact ⟨hy, ihl hl, hr⟩
    · simp only [insertGo, if_neg h]
      exact ⟨hy, hl, ihr hr⟩

theorem isBST_insertGo [LinearOrder α] {t : Tree α} {v : α} (hb : IsBST t)
    (hv : v ∉ inorder t) : IsBST (insertGo t v) := by
  induction t with
  | nil => exact ⟨trivial, trivial, trivial, trivial⟩
  | node y l r ihl ihr =>
    obtain ⟨hfl, hfr, bl, br⟩ := hb
    rw [inorder] at hv
    simp only [List.mem_append, List.mem_cons, not_or] at hv
    obtain ⟨hvl, hvy, hvr⟩ := hv
    by_cases h : v < y
    · simp only [insertGo, if_pos h]
      exact ⟨forallT_insertGo hfl h, hfr, ihl bl hvl, br⟩
    · have hyv : y < v := lt_of_le_of_ne (not_lt.mp h) fun he => hvy he.symm
      simp only [insertGo, if_neg h]
      exact ⟨hfl, forallT_insertGo hfr hyv, bl, ihr br hvr⟩

theorem insert_fst_isBST [LinearOrder α] {s : persistent_set α}
    (hb : IsBST s.m_root) (v : α) : IsBST ((s.insert v).1.m_root) := by
  unfold persistent_set.insert
  by_cases h : s.find v ≠ none
  · rw [if_pos h]
    exact hb
  · rw [if_neg h]
    rw [not_not] at h
    have hnm : v ∉ inorder s.m_root := fun hm => by
      rw [find_eq_some_of_mem hb hm] at h
      cases h
    exact isBST_insertGo hb hnm

theorem mem_insert_fst [LinearOrder α] {s : persistent_set α}
    (hb : IsBST s.m_root) (v x : α) :
    x ∈ inorder ((s.insert v).1.m_root) ↔ x ∈ inorder s.m_root ∨ x = v := by
  unfold persistent_set.insert
  by_cases h : s.find v ≠ none
  · rw [if_pos h]
    have hvm : v ∈ inorder s.m_root := by
      by_contra hnm
      exact h (find_eq_none_of_not_mem hb hnm)
    constructor
    · exact Or.inl
    · rintro (hx | rfl)
      · exact hx
      · exact hvm
  · rw [if_neg h]
    rw [mem_inorder_insertGo]
    tauto

theorem buildSet_inv [LinearOrder α] (vs : List α) :
    ∀ s : persistent_set α, IsBST s.m_root →
      IsBST ((vs.foldl (fun s v => (s.insert v).1) s).m_root) ∧
      ∀ x, x ∈ inorder ((vs.foldl (fun s v => (s.insert v).1) s).m_root) ↔
        x ∈ inorder s.m_root ∨ x ∈ vs := by
  induction vs with
  | nil => simp
  | cons v vs ih =>
    intro s hb
    simp only [List.foldl_cons]
    obtain ⟨h1, h2⟩ := ih _ (insert_fst_isBST hb v)
    refine ⟨h1, fun x => ?_⟩
    rw [h2 x, mem_insert_fst hb]
    simp only [List.mem_cons]
    tauto

theorem buildSet_isBST [LinearOrder α] (vs : List α) :
    IsBST ((buildSet (α := α) vs).m_root) :=
  (buildSet_inv vs persistent_set.empty trivial).1

theorem mem_buildSet [LinearOrder α] (vs : List α) (x : α) :
    x ∈ inorder ((buildSet (α := α) vs).m_root) ↔ x ∈ vs := by
  have h := (buildSet_inv vs persistent_set.empty trivial).2 x
  simpa [persistent_set.empty, inorder] using h

theorem removeMax_inorder (x : α) (l : Tree α) (r : Tree α) :
    inorder (Tree.node x l r) =
      inorder (removeMax x l r).2 ++ [(removeMax x l r).1] := by
  induction r generalizing x l with
  | nil => simp [removeMax, inorder]
  | node rx rl rr ihl ihr =>
    have h := ihr rx rl
    simp only [removeMax, inorder] at h ⊢
    rw [h]
    simp [List.append_assoc]

theorem eraseGo_of_not_mem [LinearOrder α] {t : Tree α} {v : α}
    (hv : v ∉ inorder t) : eraseGo t v = t := by
  induction t with
  | nil => rfl
  | node x l r ihl ihr =>
    rw [inorder] at hv
    simp only [List.mem_append, List.mem_cons, not_or] at hv
    obtain ⟨hvl, hvx, hvr⟩ := hv
    have hxv : ¬ x = v := fun h => hvx h.symm
    by_cases h : v < x
    · simp only [eraseGo, if_neg hxv, if_pos h, ihl hvl]
    · simp only [eraseGo, if_neg hxv, if_neg h, ihr hvr]

theorem inorder_eraseGo [LinearOrder α] {t : Tree α} {v : α} (hb : IsBST t)
    (hv : v ∈ inorder t) :
    inorder (eraseGo t v) = (inorder t).erase v := by
  induction t with
  | nil => simp [inorder] at hv
  | node x l r ihl ihr =>
    obtain ⟨hfl, hfr, bl, br⟩ := hb
    have hL := (forallT_iff _ _).mp hfl
    have hR := (forallT_iff _ _).mp hfr
    by_cases hxv : x = v
    · subst hxv
      have hnl : x ∉ inorder l := fun hm => lt_irrefl x (hL x hm)
      have herase : (inorder (Tree.node x l r)).erase x = inorder l ++ inorder r := by
        rw [inorder, List.erase_append_right _ hnl, List.erase_cons_head]
      rw [herase]
      cases l with
      | nil =>
        cases r <;> simp [eraseGo, inorder]
      | node lx ll lr =>
        cases r with
        | nil =>
          simp [eraseGo, inorder]
        | node rx rl rr =>
          simp only [eraseGo, eq_self_iff_true, if_true]
          rw [inorder, removeMax_inorder lx ll lr]
          simp [List.append_assoc]
    · have hvx_ne : v ≠ x := fun h => hxv h.symm
      rw [inorder] at hv
      rcases List.mem_append.mp hv with hvl | hvxr
      · have h : v < x := hL v hvl
        simp only [eraseGo, if_neg hxv, if_pos h]
        rw [inorder, inorder, ihl bl hvl, List.erase_append_left _ hvl]
      · rcases List.mem_cons.mp hvxr with rfl | hvr
        · exact absurd rfl hvx_ne
        · have hxltv : x < v := hR v hvr
          have h : ¬ v < x := not_lt.mpr (le_of_lt hxltv)
          have hvnl : v ∉ inorder l := fun hm =>
            absurd (hL v hm) (not_lt.mpr (le_of_lt hxltv))
          simp only [eraseGo, if_neg hxv, if_neg h]
          rw [inorder, inorder, ihr br hvr,
            List.erase_append_right _ hvnl,
            List.erase_cons_tail (by simpa using hvx_ne.symm)]

theorem isBST_eraseGo [LinearOrder α] {t : Tree α} (v : α) (hb : IsBST t) :
    IsBST (eraseGo t v) := by
  by_cases hv : v ∈ inorder t
  · refine isBST_of_sorted_inorder ?_
    rw [inorder_eraseGo hb hv]
    exact (sorted_inorder_of_isBST hb).sublist (List.erase_sublist _ _)
  · rw [eraseGo_of_not_mem hv]
    exact hb

theorem inorder_ne_nil (x : α) (l r : Tree α) :
    inorder (Tree.node x l r) ≠ [] := by
  simp [inorder]

theorem rightmost_eq_getLast? : ∀ t : Tree α,
    rightmost t = (inorder t).getLast? := by
  intro t
  induction t with
  | nil => simp [rightmost, inorder]
  | node x l r ihl ihr =>
    cases r with
    | nil =>
      show some x = (inorder l ++ [x]).getLast?
      rw [List.getLast?_concat]
    | node rx rl rr =>
      show rightmost (Tree.node rx rl rr) =
        (inorder l ++ x :: inorder (Tree.node rx rl rr)).getLast?
      rw [ihr]
      cases hg : (inorder (Tree.node rx rl rr)).getLast? with
      | none =>
        exact absurd (List.getLast?_eq_none_iff.mp hg) (inorder_ne_nil _ _ _)
      | some a =>
        have hcons : (x :: inorder (Tree.node rx rl rr)).getLast? = some a := by
          rw [show x :: inorder (Tree.node rx rl rr) =
            [x] ++ inorder (Tree.node rx rl rr) from rfl,
            List.getLast?_append, hg]
          rfl
        rw [List.getLast?_append, hcons]
        rfl

theorem beginIt_eq_head? : ∀ t : Tree α, beginIt t = (inorder t).head? := by
  intro t
  induction t with
  | nil => simp [beginIt, inorder]
  | node x l r ihl ihr =>
    cases l with
    | nil => simp [beginIt, inorder]
    | node lx ll lr =>
      show beginIt (Tree.node lx ll lr) =
        (inorder (Tree.node lx ll lr) ++ x :: inorder r).head?
      rw [ihl, List.head?_append]
      cases hg : (inorder (Tree.node lx ll lr)).head? with
      | none =>
        exact absurd (List.head?_eq_none_iff.mp hg) (inorder_ne_nil _ _ _)
      | some a => rfl

theorem sorted_find?_gt [LinearOrder α] {v : α} (pre suf : List α)
    (hs : (pre ++ v :: suf).Sorted (· < ·)) :
    (pre ++ v :: suf).find? (fun y => decide (v < y)) = suf.head? := by
  have hp := List.pairwise_append.mp hs
  have hpre : pre.find? (fun y => decide (v < y)) = none :=
    List.find?_eq_none.mpr fun z hz => by
      simpa using not_lt.mpr (le_of_lt (hp.2.2 z hz v (List.mem_cons_self _ _)))
  rw [List.find?_append, hpre, Option.none_or,
    List.find?_cons_of_neg _ (by simp)]
  have hsuf : ∀ b ∈ suf, v < b := fun b hb =>
    (List.pairwise_cons.mp hp.2.1).1 b hb
  cases suf with
  | nil => rfl
  | cons b bs =>
    rw [List.find?_cons_of_pos _
      (by simpa using hsuf b (List.mem_cons_self _ _))]
    rfl

theorem find?_le_eq_find?_lt_of_not_mem [LinearOrder α] {v : α} :
    ∀ {l : List α}, v ∉ l →
      l.find? (fun y => decide (v ≤ y)) = l.find? (fun y => decide (v < y)) := by
  intro l
  induction l with
  | nil => simp
  | cons a l ih =>
    intro hv
    have hne : v ≠ a := fun h => hv (h ▸ List.mem_cons_self _ _)
    have hmem : v ∉ l := fun h => hv (List.mem_cons_of_mem _ h)
    by_cases h : v < a
    · rw [List.find?_cons_of_pos _ (by simpa using le_of_lt h),
        List.find?_cons_of_pos _ (by simpa using h)]
    · have hnle : ¬ v ≤ a := fun hle => h (lt_of_le_of_ne hle hne)
      rw [List.find?_cons_of_neg _ (by simpa using hnle),
        List.find?_cons_of_neg _ (by simpa using h), ih hmem]

theorem iterFrom_eq [LinearOrder α] {s : persistent_set α}
    (hb : IsBST s.m_root) :
    ∀ (suf pre : List α) (x : α) (fuel : Nat),
      inorder s.m_root = pre ++ x :: suf → suf.length + 1 ≤ fuel →
      iterFrom s fuel (some x) = x :: suf := by
  intro suf
  induction suf with
  | nil =>
    intro pre x fuel hdec hf
    match fuel, hf with
    | fuel + 1, _ =>
      have hstep : iterInc s x = none := by
        unfold iterInc persistent_set.upper_bound
        rw [upper_bound_eq_find? hb, hdec,
          sorted_find?_gt pre [] (hdec ▸ sorted_inorder_of_isBST hb)]
        rfl
      rw [iterFrom, hstep]
      cases fuel <;> rfl
  | cons y suf ih =>
    intro pre x fuel hdec hf
    match fuel, hf with
    | fuel + 1, hf =>
      have hstep : iterInc s x = some y := by
        unfold iterInc persistent_set.upper_bound
        rw [upper_bound_eq_find? hb, hdec,
          sorted_find?_gt pre (y :: suf) (hdec ▸ sorted_inorder_of_isBST hb)]
        rfl
      rw [iterFrom, hstep, ih (pre ++ [x]) y fuel (by rw [hdec]; simp)
        (by simpa using Nat.lt_of_succ_le hf)]

theorem iterSeq_eq_inorder [LinearOrder α] {s : persistent_set α}
    (hb : IsBST s.m_root) : iterSeq s = inorder s.m_root := by
  unfold iterSeq
  rw [beginIt_eq_head?]
  cases ht : inorder s.m_root with
  | nil => rfl
  | cons x rest =>
    rw [show (x :: rest).head? = some x from rfl]
    exact iterFrom_eq hb rest [] x (x :: rest).length (by simpa using ht)
      (by simp)

end PSet

namespace PHeap

variable {α : Type}

theorem hext_refl (n : Nat) (h : Heap α) : HExt n h h :=
  ⟨le_refl _, fun _ _ => rfl, [], by simp⟩

theorem hext_trans {n : Nat} {h h' h'' : Heap α} (h1 : HExt n h h')
    (h2 : HExt n h' h'') : HExt n h h'' := by
  obtain ⟨l1, g1, t1, e1⟩ := h1
  obtain ⟨l2, g2, t2, e2⟩ := h2
  exact ⟨le_trans l1 l2, fun b hb => (g2 b hb).trans (g1 b hb),
    t1 ++ t2, by rw [e2, e1, List.append_assoc]⟩

theorem hext_mono {m n : Nat} {h h' : Heap α} (hle : n ≤ m)
    (he : HExt m h h') : HExt n h h' :=
  ⟨he.1, fun b hb => he.2.1 b (lt_of_lt_of_le hb hle), he.2.2⟩

theorem hext_allocN {n : Nat} {h : Heap α} (c : NodeCell)
    (hn : n ≤ h.nodes.length) : HExt n h (allocN h c).1 := by
  refine ⟨by simp [allocN], fun b hb => ?_, [], by simp [allocN]⟩
  simp only [allocN]
  exact List.getElem?_append_left (lt_of_lt_of_le hb hn)

theorem hext_allocV {n : Nat} {h : Heap α} (v : α) :
    HExt n h (allocV h v).1 :=
  ⟨le_refl _, fun _ _ => rfl, [v], rfl⟩

theorem hext_writeN {n : Nat} {h : Heap α} {a : Nat} (c : NodeCell)
    (ha : n ≤ a) : HExt n h (writeN h a c) := by
  refine ⟨by simp [writeN], fun b hb => ?_, [], by simp [writeN]⟩
  simp only [writeN]
  exact List.getElem?_set_ne (by omega)

theorem insertGoH_frame [LinearOrder α] :
    ∀ (fuel : Nat) (h : Heap α) (a : Nat) (v : α) (n : Nat),
      n ≤ h.nodes.length → n ≤ a → HExt n h (insertGoH fuel h a v) := by
  intro fuel
  induction fuel with
  | zero => intro h a v n _ _; exact hext_refl n h
  | succ fuel ih =>
    intro h a v n hn ha
    simp only [insertGoH]
    split
    · exact hext_refl n h
    · split
      · exact hext_refl n h
      · split
        · split
          · split
            · exact hext_refl n h
            · refine hext_trans (hext_allocN _ hn)
                (hext_trans (hext_writeN _ ha) (ih _ _ _ n ?_ hn))
              simp only [writeN, allocN, List.length_set, List.length_append]
              omega
          · refine hext_trans (hext_allocV v)
              (hext_trans (hext_allocN _ ?_) (hext_writeN _ ha))
            simpa [allocV] using hn
        · split
          · split
            · exact hext_refl n h
            · refine hext_trans (hext_allocN _ hn)
                (hext_trans (hext_writeN _ ha) (ih _ _ _ n ?_ hn))
              simp only [writeN, allocN, List.length_set, List.length_append]
              omega
          · refine hext_trans (hext_allocV v)
              (hext_trans (hext_allocN _ ?_) (hext_writeN _ ha))
            simpa [allocV] using hn

theorem insertH_frame [LinearOrder α] (h : Heap α) (s : Handle) (v : α) :
    HExt h.nodes.length h (insertH h s v).1 := by
  unfold insertH
  split
  · exact hext_refl _ _
  · split
    · split
      · exact hext_refl _ _
      · refine hext_trans (hext_allocN _ (le_refl _))
          (insertGoH_frame _ _ _ _ _ ?_ (le_refl _))
        simp [allocN]
    · exact hext_trans (hext_allocV v) (hext_allocN _ (by simp [allocV]))

theorem spineH_frame :
    ∀ (fuel : Nat) (h : Heap α) (pa na n : Nat),
      n ≤ h.nodes.length → n ≤ pa → n ≤ na →
      HExt n h (spineH fuel h pa na).1 ∧
      n ≤ (spineH fuel h pa na).2.1 ∧ n ≤ (spineH fuel h pa na).2.2 := by
  intro fuel
  induction fuel with
  | zero => intro h pa na n _ hpa hna; exact ⟨hext_refl n h, hpa, hna⟩
  | succ fuel ih =>
    intro h pa na n hn hpa hna
    simp only [spineH]
    split
    · exact ⟨hext_refl n h, hpa, hna⟩
    · split
      · exact ⟨hext_refl n h, hpa, hna⟩
      · split
        · exact ⟨hext_refl n h, hpa, hna⟩
        · rename_i xa c hc xb ra hra xc rc hrc
          have hrec := ih
            (writeN (allocN h rc).1 na ⟨c.value, c.left, some (allocN h rc).2⟩)
            na (allocN h rc).2 n
            (by simp only [writeN, allocN, List.length_set, List.length_append]; omega)
            hna hn
          exact ⟨hext_trans (hext_allocN _ hn)
            (hext_trans (hext_writeN _ hna) hrec.1), hrec.2.1, hrec.2.2⟩

theorem eraseImplH_frame (h : Heap α) (pa na n : Nat)
    (hpa : n ≤ pa) : HExt n h (eraseImplH h pa na) := by
  unfold eraseImplH
  repeat' split
  all_goals first
    | exact hext_refl n h
    | exact hext_writeN _ hpa

theorem eraseLoopH_frame [LinearOrder α] :
    ∀ (fuel : Nat) (h : Heap α) (a : Nat) (v : α) (n : Nat),
      n ≤ h.nodes.length → n ≤ a → HExt n h (eraseLoopH fuel h a v).1 := by
  intro fuel
  induction fuel with
  | zero => intro h a v n _ _; exact hext_refl n h
  | succ fuel ih =>
    intro h a v n hn ha
    simp only [eraseLoopH]
    split
    · exact hext_refl n h
    · split
      · exact hext_refl n h
      · split
        · split
          · split
            · exact hext_refl n h
            · split
              · refine hext_trans (hext_allocN _ hn)
                  (hext_trans (hext_writeN _ ha)
                    (hext_trans (spineH_frame fuel _ _ _ n ?_ ha hn).1
                      (hext_trans (hext_writeN _ ha)
                        (hext_trans
                          (hext_writeN _ (spineH_frame fuel _ _ _ n ?_ ha hn).2.2)
                          (eraseImplH_frame _ _ _ n
                            (spineH_frame fuel _ _ _ n ?_ ha hn).2.1))))) <;>
                · simp only [writeN, allocN, List.length_set, List.length_append]
                  omega
              · refine hext_trans (hext_allocN _ hn)
                  (hext_trans (hext_writeN _ ha)
                    (spineH_frame fuel _ _ _ n ?_ ha hn).1)
                simp only [writeN, allocN, List.length_set, List.length_append]
                omega
          · exact hext_refl n h
          · exact hext_refl n h
        · split
          · split
            · exact hext_refl n h
            · split
              · exact hext_refl n h
              · split
                · refine hext_trans (hext_allocN _ hn)
                    (hext_trans (hext_writeN _ ha)
                      (hext_trans (ih _ _ _ n ?_ hn) (hext_writeN _ ha)))
                  simp only [writeN, allocN, List.length_set, List.length_append]
                  omega
                · refine hext_trans (hext_allocN _ hn)
                    (hext_trans (hext_writeN _ ha) (ih _ _ _ n ?_ hn))
                  simp only [writeN, allocN, List.length_set, List.length_append]
                  omega
          · split
            · exact hext_refl n h
            · split
              · exact hext_refl n h
              · split
                · refine hext_trans (hext_allocN _ hn)
                    (hext_trans (hext_writeN _ ha)
                      (hext_trans (ih _ _ _ n ?_ hn) (hext_writeN _ ha)))
                  simp only [writeN, allocN, List.length_set, List.length_append]
                  omega
                · refine hext_trans (hext_allocN _ hn)
                    (hext_trans (hext_writeN _ ha) (ih _ _ _ n ?_ hn))
                  simp only [writeN, allocN, List.length_set, List.length_append]
                  omega

theorem eraseH_frame [LinearOrder α] (h : Heap α) (s : Handle) (ita : Nat) :
    HExt h.nodes.length h (eraseH h s ita).1 := by
  unfold eraseH
  split
  · exact hext_refl _ _
  · split
    · exact hext_refl _ _
    · split
      · exact hext_refl _ _
      · split
        · exact hext_refl _ _
        · refine hext_trans (hext_allocN _ (le_refl _))
            (eraseLoopH_frame _ _ _ _ _ ?_ (le_refl _))
          simp [allocN]

theorem applyOp_frame [LinearOrder α] (hs : Heap α × Handle) (op : Op α) :
    HExt hs.1.nodes.length hs.1 (applyOp hs op).1 := by
  cases op with
  | ins v => exact insertH_frame hs.1 hs.2 v
  | del v =>
    simp only [applyOp]
    cases hf : findH hs.1 hs.2 v with
    | none => exact hext_refl _ _
    | some a => exact eraseH_frame hs.1 hs.2 a

theorem applyOps_frame [LinearOrder α] :
    ∀ (ops : List (Op α)) (h : Heap α) (s : Handle) (n : Nat),
      n ≤ h.nodes.length → HExt n h (applyOps ops h s).1 := by
  intro ops
  induction ops with
  | nil => intro h s n _; exact hext_refl n h
  | cons op ops ih =>
    intro h s n hn
    have h1 : HExt n h (applyOp (h, s) op).1 :=
      hext_mono hn (applyOp_frame (h, s) op)
    have h2 : HExt n (applyOp (h, s) op).1
        (applyOps ops (applyOp (h, s) op).1 (applyOp (h, s) op).2).1 :=
      ih _ _ n (le_trans hn h1.1)
    exact hext_trans h1 h2

theorem closedB_cell {h : Heap α} (hcl : closedB h = true) {b : Nat}
    {c : NodeCell} (hb : h.nodes[b]? = some c) :
    (∀ a ∈ c.left, a < h.nodes.length) ∧
    (∀ a ∈ c.right, a < h.nodes.length) ∧
    (∀ i ∈ c.value, i < h.vals.length) := by
  have hc : c ∈ h.nodes := List.getElem?_mem hb
  have hok := (List.all_eq_true.mp hcl) c hc
  simp only [cellOkB, Bool.and_eq_true] at hok
  obtain ⟨⟨h1, h2⟩, h3⟩ := hok
  refine ⟨fun a ha => ?_, fun a ha => ?_, fun i hi => ?_⟩
  · rw [Option.mem_def] at ha
    rw [ha] at h1
    simpa using h1
  · rw [Option.mem_def] at ha
    rw [ha] at h2
    simpa using h2
  · rw [Option.mem_def] at hi
    rw [hi] at h3
    simpa using h3

theorem readVal_hext {h h' : Heap α} (he : HExt h.nodes.length h h')
    {c : NodeCell} (hv : ∀ i ∈ c.value, i < h.vals.length) :
    readVal h' c = readVal h c := by
  unfold readVal
  cases hcv : c.value with
  | none => rfl
  | some i =>
    obtain ⟨tl, htl⟩ := he.2.2
    show h'.vals[i]? = h.vals[i]?
    rw [htl]
    exact List.getElem?_append_left (hv i (by rw [hcv]; rfl))

theorem inorderH_frame {h h' : Heap α} (he : HExt h.nodes.length h h')
    (hcl : closedB h = true) :
    ∀ (fuel : Nat) (r : Option Nat), (∀ a ∈ r, a < h.nodes.length) →
      inorderH fuel h' r = inorderH fuel h r := by
  intro fuel
  induction fuel with
  | zero => intro r _; rfl
  | succ fuel ih =>
    intro r hr
    cases r with
    | none => rfl
    | some a =>
      have ha : a < h.nodes.length := hr a rfl
      rw [inorderH, inorderH, he.2.1 a ha]
      cases hc : h.nodes[a]? with
      | none => rfl
      | some c =>
        obtain ⟨hcll, hclr, hclv⟩ := closedB_cell hcl hc
        show (inorderH fuel h' c.left ++
            (match readVal h' c with | none => [] | some x => [x]) ++
            inorderH fuel h' c.right) =
          (inorderH fuel h c.left ++
            (match readVal h c with | none => [] | some x => [x]) ++
            inorderH fuel h c.right)
        rw [ih c.left hcll, ih c.right hclr, readVal_hext he hclv]

end PHeap

namespace PSet

variable {α : Type}

theorem find?_sorted_min [LinearOrder α] {l : List α}
    (hs : l.Sorted (· < ·)) {p : α → Bool} {y : α} (h : l.find? p = some y) :
    ∀ z ∈ l, p z = true → y ≤ z := by
  obtain ⟨pre, suf, rfl, hpre⟩ := find?_some_decomp h
  intro z hz hp
  rcases List.mem_append.mp hz with hzp | hzs
  · exact absurd hp (hpre z hzp)
  · rcases List.mem_cons.mp hzs with rfl | hzs'
    · exact le_refl _
    · exact le_of_lt
        ((List.pairwise_cons.mp (List.pairwise_append.mp hs).2.1).1 z hzs')

theorem sorted_le_getLast [LinearOrder α] :
    ∀ {l : List α}, l.Sorted (· < ·) → ∀ {m : α}, l.getLast? = some m →
      m ∈ l ∧ ∀ y ∈ l, y ≤ m := by
  intro l
  induction l with
  | nil => intro _ m hm; cases hm
  | cons a l ih =>
    intro hs m hm
    cases l with
    | nil =>
      cases hm
      exact ⟨List.mem_cons_self _ _, by
        intro y hy
        rcases List.mem_cons.mp hy with rfl | hy'
        · exact le_refl _
        · cases hy'⟩
    | cons b l2 =>
      have hm' : (b :: l2).getLast? = some m := by
        rw [List.getLast?_cons_cons] at hm
        exact hm
      obtain ⟨hmem, hall⟩ := ih (List.sorted_cons.mp hs).2 hm'
      refine ⟨List.mem_cons_of_mem _ hmem, fun y hy => ?_⟩
      rcases List.mem_cons.mp hy with rfl | hy'
      · exact le_of_lt ((List.sorted_cons.mp hs).1 m hmem)
      · exact hall y hy'

/-- C4: starting from the empty set, after any sequence of `insert` calls
the set contains exactly the distinct values inserted and the
`begin()`-to-`end()` iteration (successive `upper_bound` re-searches)
yields them in strictly ascending order; member `insert` and member
`erase` preserve the binary-search-tree order invariant (left subtree
values `<` node value `<` right subtree values). -/
theorem c4_insert_erase_invariants [LinearOrder α] :
    (∀ vs : List α,
      (∀ x, x ∈ iterSeq (buildSet vs) ↔ x ∈ vs) ∧
      (iterSeq (buildSet vs)).Sorted (· < ·)) ∧
    (∀ (s : persistent_set α) (v : α), IsBST s.m_root →
      IsBST ((s.insert v).1.m_root)) ∧
    (∀ (s : persistent_set α) (v : α), IsBST s.m_root →
      IsBST ((s.erase v).1.m_root)) := by
  refine ⟨fun vs => ?_, fun s v hb => insert_fst_isBST hb v,
    fun s v hb => isBST_eraseGo v hb⟩
  have hb := buildSet_isBST (α := α) vs
  rw [iterSeq_eq_inorder hb]
  exact ⟨fun x => mem_buildSet vs x, sorted_inorder_of_isBST hb⟩

/-- Witness for C4: the BST hypotheses are discharged on the concrete set
`{1, 3, 4, 5, 8}` from the specification's scenario. -/
theorem c4_insert_erase_invariants_witness :
    IsBST (((buildSet ([5, 3, 8, 1, 4] : List Nat)).insert 6).1.m_root) ∧
    IsBST (((buildSet ([5, 3, 8, 1, 4] : List Nat)).erase 3).1.m_root) :=
  ⟨c4_insert_erase_invariants.2.1 (buildSet [5, 3, 8, 1, 4]) 6 (by decide),
   c4_insert_erase_invariants.2.2 (buildSet [5, 3, 8, 1, 4]) 3 (by decide)⟩

/-- C5: on a set satisfying the BST invariant, `lower_bound(v)` returns
the smallest element not less than `v` (or `end()` when every element is
below `v`), and `upper_bound(v)` returns the smallest element strictly
greater than `v` (or `end()` when no element exceeds `v`). -/
theorem c5_bounds_spec [LinearOrder α] (s : persistent_set α) (v : α)
    (hb : IsBST s.m_root) :
    (∀ y, s.lower_bound v = some y →
      y ∈ inorder s.m_root ∧ v ≤ y ∧
      ∀ z ∈ inorder s.m_root, v ≤ z → y ≤ z) ∧
    (s.lower_bound v = none → ∀ z ∈ inorder s.m_root, z < v) ∧
    (∀ y, s.upper_bound v = some y →
      y ∈ inorder s.m_root ∧ v < y ∧
      ∀ z ∈ inorder s.m_root, v < z → y ≤ z) ∧
    (s.upper_bound v = none → ∀ z ∈ inorder s.m_root, z ≤ v) := by
  have hsorted := sorted_inorder_of_isBST hb
  refine ⟨fun y hy => ?_, fun hnone => ?_, fun y hy => ?_, fun hnone => ?_⟩
  · unfold persistent_set.lower_bound at hy
    rw [lower_bound_eq_find? hb] at hy
    exact ⟨List.mem_of_find?_eq_some hy, by simpa using List.find?_some hy,
      fun z hz hvz => find?_sorted_min hsorted hy z hz (by simpa using hvz)⟩
  · unfold persistent_set.lower_bound at hnone
    rw [lower_bound_eq_find? hb] at hnone
    intro z hz
    have hnle := List.find?_eq_none.mp hnone z hz
    simp only [decide_eq_true_eq] at hnle
    exact lt_of_not_le hnle
  · unfold persistent_set.upper_bound at hy
    rw [upper_bound_eq_find? hb] at hy
    exact ⟨List.mem_of_find?_eq_some hy, by simpa using List.find?_some hy,
      fun z hz hvz => find?_sorted_min hsorted hy z hz (by simpa using hvz)⟩
  · unfold persistent_set.upper_bound at hnone
    rw [upper_bound_eq_find? hb] at hnone
    intro z hz
    have hnlt := List.find?_eq_none.mp hnone z hz
    simp only [decide_eq_true_eq] at hnlt
    exact not_lt.mp hnlt

/-- Witness for C5 on the scenario set `{1, 3, 4, 5, 8}` with `v = 4`:
`upper_bound(4)` points at `5`, an element of the set above `4`. -/
theorem c5_bounds_spec_witness :
    IsBST (buildSet ([5, 3, 8, 1, 4] : List Nat)).m_root ∧
    5 ∈ inorder (buildSet ([5, 3, 8, 1, 4] : List Nat)).m_root ∧
    (4 : Nat) < 5 :=
  ⟨by decide,
    ((c5_bounds_spec (buildSet [5, 3, 8, 1, 4]) 4 (by decide)).2.2.1 5
      (by decide)).1,
    ((c5_bounds_spec (buildSet [5, 3, 8, 1, 4]) 4 (by decide)).2.2.1 5
      (by decide)).2.1⟩

/-- C6: erasing through a valid iterator (here represented by the value
`v` it points to, with a size field consistent with the tree) removes
exactly that element, decreases the size by exactly one, returns the
`lower_bound` of the erased value on the post-erase tree — which is the
smallest element greater than `v`, `end()` when `v` was the largest — and
a subsequent `find v` yields `end()`. -/
theorem c6_erase_spec [LinearOrder α] (s : persistent_set α) (v : α)
    (hb : IsBST s.m_root) (hv : v ∈ inorder s.m_root)
    (hsz : s.m_size = (inorder s.m_root).length) :
    inorder ((s.erase v).1.m_root) = (inorder s.m_root).erase v ∧
    (s.erase v).1.m_size + 1 = s.m_size ∧
    (s.erase v).2 =
      (inorder ((s.erase v).1.m_root)).find? (fun y => decide (v < y)) ∧
    ((s.erase v).1).find v = none := by
  have hio : inorder ((s.erase v).1.m_root) = (inorder s.m_root).erase v :=
    inorder_eraseGo hb hv
  have hb' : IsBST ((s.erase v).1.m_root) := isBST_eraseGo v hb
  have hnm : v ∉ inorder ((s.erase v).1.m_root) := by
    rw [hio]
    exact (nodup_inorder_of_isBST hb).not_mem_erase
  refine ⟨hio, ?_, ?_, find_eq_none_of_not_mem hb' hnm⟩
  · have hlen := List.length_pos_of_mem hv
    show s.m_size - 1 + 1 = s.m_size
    omega
  · show PSet.lower_bound ((s.erase v).1.m_root) v = _
    rw [lower_bound_eq_find? hb', find?_le_eq_find?_lt_of_not_mem hnm]

/-- Witness for C6 on the scenario set `{1, 3, 4, 5, 8}`: erasing `3`
leaves in-order sequence `[1, 4, 5, 8]` and a re-`find` of `3` fails. -/
theorem c6_erase_spec_witness :
    inorder (((buildSet ([5, 3, 8, 1, 4] : List Nat)).erase 3).1.m_root) =
      (inorder (buildSet ([5, 3, 8, 1, 4] : List Nat)).m_root).erase 3 ∧
    (((buildSet ([5, 3, 8, 1, 4] : List Nat)).erase 3).1).find 3 = none :=
  ⟨(c6_erase_spec (buildSet [5, 3, 8, 1, 4]) 3 (by decide) (by decide)
      (by decide)).1,
   (c6_erase_spec (buildSet [5, 3, 8, 1, 4]) 3 (by decide) (by decide)
      (by decide)).2.2.2⟩

/-- C7: inserting a value already present returns the pair
(iterator to the existing element, `false`) and performs no mutation —
the handle (root and size, hence the iteration order) is returned
unchanged. -/
theorem c7_insert_existing [LinearOrder α] (s : persistent_set α) (v : α)
    (hb : IsBST s.m_root) (hv : v ∈ inorder s.m_root) :
    s.insert v = (s, some v, false) := by
  have hf : s.find v = some v := find_eq_some_of_mem hb hv
  unfold persistent_set.insert
  rw [if_pos (by rw [hf]; simp), hf]

/-- Witness for C7 on the scenario set `{1, 3, 4, 5, 8}` with `v = 3`. -/
theorem c7_insert_existing_witness :
    (buildSet ([5, 3, 8, 1, 4] : List Nat)).insert 3 =
      (buildSet [5, 3, 8, 1, 4], some 3, false) :=
  c7_insert_existing (buildSet [5, 3, 8, 1, 4]) 3 (by decide) (by decide)

/-- C8: `find(v)` is `lower_bound(v)` filtered to exact equality: on a set
satisfying the BST invariant it returns the element itself for every
member (`*find(e) == e`), `end()` for every non-member, and whenever it
returns a position, that position is the `lower_bound` position and holds
exactly `v`. -/
theorem c8_find_spec [LinearOrder α] (s : persistent_set α) (v : α)
    (hb : IsBST s.m_root) :
    (v ∈ inorder s.m_root → s.find v = some v) ∧
    (v ∉ inorder s.m_root → s.find v = none) ∧
    (∀ y, s.find v = some y → s.lower_bound v = some y ∧ y = v) := by
  refine ⟨fun hv => find_eq_some_of_mem hb hv,
    fun hv => find_eq_none_of_not_mem hb hv, fun y hy => ?_⟩
  unfold persistent_set.find at hy
  unfold persistent_set.lower_bound
  cases hlb : lower_bound s.m_root v with
  | none => rw [hlb] at hy; cases hy
  | some z =>
    rw [hlb] at hy
    have hy' : (if z ≠ v then none else some z) = some y := hy
    by_cases hz : z ≠ v
    · rw [if_pos hz] at hy'; cases hy'
    · rw [if_neg hz] at hy'
      cases hy'
      rw [not_not] at hz
      exact ⟨rfl, hz⟩

/-- Witness for C8 on the scenario set `{1, 3, 4, 5, 8}` with `v = 8`. -/
theorem c8_find_spec_witness :
    (buildSet ([5, 3, 8, 1, 4] : List Nat)).find 8 = some 8 :=
  (c8_find_spec (buildSet [5, 3, 8, 1, 4]) 8 (by decide)).1 (by decide)

/-- C9: `operator++` on an iterator holding `v` re-derives the next
position as `upper_bound(v)` against the owning set's current root — so
on a BST it yields the first element of the current in-order sequence
strictly greater than `v` (this holds for whatever set value the owning
pointer currently designates, i.e. also after mutations); and `operator--`
on the `end()` iterator of a non-empty set walks to the maximum (rightmost)
element of the whole tree. -/
theorem c9_iterator_step [LinearOrder α] (s : persistent_set α)
    (hb : IsBST s.m_root) :
    (∀ v, iterInc s v = s.upper_bound v ∧
      iterInc s v = (inorder s.m_root).find? (fun y => decide (v < y))) ∧
    (inorder s.m_root ≠ [] →
      ∃ m, iterDecEnd s = some m ∧ m ∈ inorder s.m_root ∧
        ∀ y ∈ inorder s.m_root, y ≤ m) := by
  constructor
  · intro v
    refine ⟨rfl, ?_⟩
    show PSet.upper_bound s.m_root v = _
    exact upper_bound_eq_find? hb v
  · intro hne
    have hrm := rightmost_eq_getLast? s.m_root
    obtain ⟨m, hm⟩ : ∃ m, (inorder s.m_root).getLast? = some m := by
      cases hg : (inorder s.m_root).getLast? with
      | none => exact absurd (List.getLast?_eq_none_iff.mp hg) hne
      | some m => exact ⟨m, rfl⟩
    obtain ⟨hmem, hmax⟩ := sorted_le_getLast (sorted_inorder_of_isBST hb) hm
    exact ⟨m, by unfold iterDecEnd; rw [hrm, hm], hmem, hmax⟩

/-- Witness for C9 on the scenario set `{1, 3, 4, 5, 8}`: stepping an
iterator holding `4` searches the current root with `upper_bound`. -/
theorem c9_iterator_step_witness :
    iterInc (buildSet ([5, 3, 8, 1, 4] : List Nat)) 4 =
      (inorder (buildSet ([5, 3, 8, 1, 4] : List Nat)).m_root).find?
        (fun y => decide (4 < y)) :=
  ((c9_iterator_step (buildSet [5, 3, 8, 1, 4]) (by decide)).1 4).2

end PSet

namespace PExc

open PSet (persistent_set buildSet)

variable {α : Type}

/-- C2: strong exception safety of `insert` and `erase`.  Comparisons and
allocations are gas-metered and throw (`none`) when the gas runs out, so
quantifying over all gas amounts covers an exception raised at every
possible point of the call.  Whenever the call reports an exception, the
handle that comes back — its `m_root` and `m_size`, hence its size and
iteration sequence — is exactly the one passed in: the `catch` block
restores the saved root and size before rethrowing, and no path delivers
an exception together with a mutated handle. -/
theorem c2_strong_exception_safety [LinearOrder α] (s : persistent_set α)
    (v w : α) (g g' : Nat) :
    ((insertE s v g).2 = none → (insertE s v g).1.1 = s) ∧
    ((eraseE s w g').2 = none → (eraseE s w g').1.1 = s) := by
  constructor
  · unfold insertE
    split
    · intro _; rfl
    · intro hcon; simp at hcon
    · split
      · intro hcon; simp at hcon
      · intro _; rfl
  · unfold eraseE
    split
    · intro hcon; simp at hcon
    · intro _; rfl

/-- Witness for C2: with zero gas the very first comparison of `insert`
and the very first allocation of `erase` throw, and the scenario set
`{1, 3, 4, 5, 8}` comes back untouched in both cases. -/
theorem c2_strong_exception_safety_witness :
    (insertE (buildSet ([5, 3, 8, 1, 4] : List Nat)) 6 0).1.1 =
      buildSet [5, 3, 8, 1, 4] ∧
    (eraseE (buildSet ([5, 3, 8, 1, 4] : List Nat)) 3 0).1.1 =
      buildSet [5, 3, 8, 1, 4] :=
  ⟨(c2_strong_exception_safety (buildSet [5, 3, 8, 1, 4]) 6 3 0 0).1
      (by decide),
   (c2_strong_exception_safety (buildSet [5, 3, 8, 1, 4]) 6 3 0 0).2
      (by decide)⟩

end PExc

namespace PHeap

variable {α : Type}

/-- C1: persistence / structural-sharing independence.  For a closed heap
and a handle `S` with a valid root pointer, let `C` be the copy of `S`
(the copy constructor shares the sentinel's member pointers and the
size).  Applying any sequence of `insert`/`erase(find(·))` operations to
`C` leaves the in-order readout of `S`'s tree — at every fuel — exactly
as it was, and symmetrically operations applied to `S` leave `C`'s
readout unchanged.  (The un-mutated handle itself, including its
`m_size`, is a separate value the operations never touch; the substance
is that path copying never writes to any heap address reachable from the
other version's root.) -/
theorem c1_persistence_frame [LinearOrder α] (h : Heap α) (S C : Handle)
    (ops ops' : List (Op α)) (hcl : closedB h = true)
    (hS : rootOkB h S = true) (hC : C = copyHandle S) :
    (∀ fuel, inorderH fuel (applyOps ops h C).1 S.m_root.left =
      inorderH fuel h S.m_root.left) ∧
    (∀ fuel, inorderH fuel (applyOps ops' h S).1 C.m_root.left =
      inorderH fuel h C.m_root.left) := by
  have hroot : ∀ a ∈ S.m_root.left, a < h.nodes.length := by
    intro a ha
    unfold rootOkB at hS
    rw [Option.mem_def] at ha
    rw [ha] at hS
    simpa using hS
  constructor
  · intro fuel
    exact inorderH_frame (applyOps_frame ops h C _ (le_refl _)) hcl fuel _
      hroot
  · intro fuel
    subst hC
    exact inorderH_frame (applyOps_frame ops' h S _ (le_refl _)) hcl fuel _
      hroot

/-- Witness for C1: build `{1, 2}` in a concrete heap, copy the handle,
insert `5` into the copy and erase `2` from the copy; the original's
readout is untouched. -/
theorem c1_persistence_frame_witness :
    (closedB demoIns2.1 = true ∧ rootOkB demoIns2.1 demoIns2.2.1 = true) ∧
    inorderH 10 (applyOps [Op.ins 5, Op.del 2] demoIns2.1
        (copyHandle demoIns2.2.1)).1 demoIns2.2.1.m_root.left =
      inorderH 10 demoIns2.1 demoIns2.2.1.m_root.left :=
  ⟨⟨by decide, by decide⟩,
    (c1_persistence_frame demoIns2.1 demoIns2.2.1 (copyHandle demoIns2.2.1)
      [Op.ins 5, Op.del 2] [] (by decide) (by decide) rfl).1 10⟩

/-- C3 counterexample: two sets that hold exactly the same single element
`0` — identical in-order readout and identical size — yet compare unequal
under `operator==`, because node equality compares the `shared_ptr`
addresses of `value`/`left`/`right` (shallow pointer identity), not the
element values recursively.  The last conjunct exhibits the two leaf node
cells themselves: both hold the value `0` and empty subtrees, but their
`value` pointers differ, so `operator==` on the nodes is `false`. -/
theorem c3_structural_equality_counterexample :
    inorderH 4 demoB.1 demoA.2.1.m_root.left = [0] ∧
    inorderH 4 demoB.1 demoB.2.1.m_root.left = [0] ∧
    demoA.2.1.m_size = demoB.2.1.m_size ∧
    setEqB demoA.2.1 demoB.2.1 = false ∧
    demoB.1.nodes[0]? = some ⟨some 0, none, none⟩ ∧
    demoB.1.nodes[1]? = some ⟨some 1, none, none⟩ ∧
    demoB.1.vals[0]? = some 0 ∧
    demoB.1.vals[1]? = some 0 ∧
    nodeEqB ⟨some 0, none, none⟩ ⟨some 1, none, none⟩ = false := by
  decide

/-- C3 amended: `operator==` on sets compares the two sentinel root nodes
member-pointer-wise (`left`, `right`, `value` compared as `shared_ptr`
addresses) together with the sizes — so two sets compare equal iff their
handles hold identical root references and equal sizes.  Such equality
implies an identical iteration sequence (the sound direction), but sets
holding the same elements need not compare equal. -/
theorem c3_pointer_equality_amended (h : Heap α) (A B : Handle) :
    (setEqB A B = true ↔ A.m_root = B.m_root ∧ A.m_size = B.m_size) ∧
    (setEqB A B = true →
      ∀ fuel, inorderH fuel h A.m_root.left = inorderH fuel h B.m_root.left) := by
  have hiff : setEqB A B = true ↔
      A.m_root = B.m_root ∧ A.m_size = B.m_size := by
    obtain ⟨⟨av, al, ar⟩, sa⟩ := A
    obtain ⟨⟨bv, bl, br⟩, sb⟩ := B
    simp only [setEqB, nodeEqB, Bool.and_eq_true, beq_iff_eq,
      NodeCell.mk.injEq, Handle.mk.injEq]
    constructor
    · rintro ⟨⟨⟨h1, h2⟩, h3⟩, h4⟩
      exact ⟨⟨h3, h1, h2⟩, h4⟩
    · rintro ⟨⟨h1, h2, h3⟩, h4⟩
      exact ⟨⟨⟨h2, h3⟩, h1⟩, h4⟩
  refine ⟨hiff, fun he fuel => ?_⟩
  rw [(hiff.mp he).1]

/-- Witness for C3 (amended form): a set compares equal to itself and its
readout trivially coincides with itself. -/
theorem c3_pointer_equality_amended_witness :
    inorderH 4 demoA.1 demoA.2.1.m_root.left =
      inorderH 4 demoA.1 demoA.2.1.m_root.left :=
  (c3_pointer_equality_amended demoA.1 demoA.2.1 demoA.2.1).2 (by decide) 4

/-- C10: the copy constructor shares the root node's `value`/`left`/
`right` references and the size, and set equality compares exactly those
root components together with the size — hence a copy compares equal to
its source and every set compares equal to itself. -/
theorem c10_copy_equality (S : Handle) :
    setEqB (copyHandle S) S = true ∧ setEqB S S = true ∧
    (copyHandle S).m_root = S.m_root ∧ (copyHandle S).m_size = S.m_size := by
  refine ⟨?_, ?_, rfl, rfl⟩ <;> simp [setEqB, nodeEqB, copyHandle]

end PHeap
